import Mathlib

/-!
Verification of the Tideflow markdown-to-PDF preprocessing pipeline.

This file gives a shallow embedding of the Rust sources
`src-tauri/src/preprocessor.rs`, `src-tauri/src/renderer.rs` and
`src-tauri/src/utils/typst.rs` and proves (or refutes) the specified
properties of the markdown preprocessor, the anchor injector, the
source-map builder and the image-path rewriter.

Text is modelled as `List Char` (the inputs relevant to the claims are
ASCII, where Rust byte offsets and character offsets coincide).  External
effects (the CommonMark block parser of the `pulldown_cmark` crate, the
filesystem and the Typst compiler subprocess) are modelled as explicit
parameters, so every function here is a pure, executable translation of
the corresponding Rust function.
-/

namespace Tideflow

/-- Text is a list of characters. -/
abbrev Str := List Char

/-- Whitespace test used by Rust `str::trim_start` / `trim` (ASCII fragment). -/
def is_ws (c : Char) : Bool :=
  c == ' ' || c == '\t' || c == '\n' || c == '\r'

/-- Rust `str::trim_start`. -/
def trim_start (s : Str) : Str := s.dropWhile is_ws

/-- Rust `str::trim_end`. -/
def trim_end (s : Str) : Str := (s.reverse.dropWhile is_ws).reverse

/-- Rust `str::trim`. -/
def trim (s : Str) : Str := trim_end (trim_start s)

/-- Rust `str::starts_with` on strings. -/
def starts_with : Str → Str → Bool
  | _, [] => true
  | [], _ :: _ => false
  | c :: s, p :: ps => c == p && starts_with s ps

/-- Rust `str::to_lowercase` (ASCII fragment). -/
def to_lower (s : Str) : Str := s.map Char.toLower

/-- Rust `str::find(char)`: index of the first occurrence of a character. -/
def find_char (s : Str) (c : Char) : Option Nat :=
  s.findIdx? (fun d => d == c)

/-- Rust `str::contains(char)`. -/
def contains_char (s : Str) (c : Char) : Bool := s.contains c

/-- Rust `str::split_inclusive('\n')`: segments keep their trailing newline. -/
def split_inclusive_nl (s : Str) : List Str :=
  match s with
  | [] => []
  | c :: rest =>
    match split_inclusive_nl rest with
    | [] => [[c]]
    | seg :: segs =>
      if c == '\n' then [c] :: seg :: segs else (c :: seg) :: segs

/-- Rust `str::split('\n')`. -/
def split_nl (s : Str) : List Str :=
  match s with
  | [] => [[]]
  | c :: rest =>
    let segs := split_nl rest
    if c == '\n' then [] :: segs
    else
      match segs with
      | [] => [[c]]
      | seg :: rest2 => (c :: seg) :: rest2

/-- `canonical_admonition_kind` from `preprocessor.rs`: case-insensitive
synonym folding onto the closed kind set, defaulting to `note`. -/
def canonical_admonition_kind (raw : Str) : Str :=
  let l := to_lower raw
  if l = "warning".toList ∨ l = "warn".toList ∨ l = "danger".toList ∨
      l = "caution".toList then "warning".toList
  else if l = "tip".toList ∨ l = "success".toList then "tip".toList
  else if l = "info".toList ∨ l = "information".toList then "info".toList
  else if l = "important".toList then "important".toList
  else "note".toList

/-- The inner `while` loop of `transform_admonitions`: consume the following
segments that start (after left-trim) with `>`, stripping the marker and
the spaces after it, and return the collected body together with the
unconsumed segments. -/
def consume_quoted : List Str → Str × List Str
  | [] => ([], [])
  | seg :: rest =>
    let hadNL := seg ≠ [] ∧ seg.getLast? = some '\n'
    let lineBody := if seg ≠ [] ∧ seg.getLast? = some '\n' then seg.dropLast else seg
    let trimmedLine := trim_start lineBody
    if ¬ starts_with trimmedLine ">".toList then ([], seg :: rest)
    else
      let content := (trimmedLine.drop 1).dropWhile (fun c => c == ' ')
      let piece : Str :=
        if content = [] then ['\n']
        else content ++ (if hadNL then ['\n'] else [])
      let pr := consume_quoted rest
      (piece ++ pr.1, pr.2)

theorem consume_quoted_length_le (l : List Str) :
    (consume_quoted l).2.length ≤ l.length := by
  induction l with
  | nil => simp [consume_quoted]
  | cons seg rest ih =>
    simp only [consume_quoted]
    split
    · split
      · simp
      · exact Nat.le_succ_of_le ih
    · split
      · simp
      · exact Nat.le_succ_of_le ih

/-- Main loop of `transform_admonitions`, recursing over the
`split_inclusive('\n')` segments. -/
def transform_admonitions_go (segments : List Str) : Str :=
  match hseg : segments with
  | [] => []
  | seg :: rest =>
    let hadNL := seg ≠ [] ∧ seg.getLast? = some '\n'
    let lineContent := if seg ≠ [] ∧ seg.getLast? = some '\n' then seg.dropLast else seg
    let trimmed := trim_start lineContent
    if ¬ starts_with trimmed ">".toList then
      seg ++ transform_admonitions_go rest
    else
      let indentLen := lineContent.length - trimmed.length
      let indent := lineContent.take indentLen
      let afterMarker0 := trim_start (trimmed.drop 1)
      if ¬ starts_with afterMarker0 "[!".toList then
        seg ++ transform_admonitions_go rest
      else
        let afterMarker := afterMarker0.drop 2
        match find_char afterMarker ']' with
        | none => seg ++ transform_admonitions_go rest
        | some closingIdx =>
          let rawKind := trim (afterMarker.take closingIdx)
          let remainder := trim_start (afterMarker.drop (closingIdx + 1))
          if rawKind = [] then
            seg ++ transform_admonitions_go rest
          else
            let kind := canonical_admonition_kind rawKind
            let body0 : Str :=
              if remainder ≠ [] then
                remainder ++ (if hadNL then ['\n'] else [])
              else if hadNL then ['\n'] else []
            let body := body0 ++ (consume_quoted rest).1
            let rendered :=
              indent ++ "<!--raw-typst #admonition(\"".toList ++ kind ++
                "\")[ -->\n".toList ++
                (body.reverse.dropWhile (fun c => c == '\n')).reverse ++ ['\n']
            rendered ++ transform_admonitions_go (consume_quoted rest).2
  termination_by segments.length
  decreasing_by
    all_goals simp only [hseg, List.length_cons]
    all_goals try omega
    all_goals exact Nat.lt_succ_of_le (consume_quoted_length_le rest)

/-- `transform_admonitions` from `preprocessor.rs`. -/
def transform_admonitions (markdown : Str) : Str :=
  transform_admonitions_go (split_inclusive_nl markdown)

/-- Rust `String::replace`: replace every non-overlapping occurrence of
`pat` by `sub`, scanning left to right. -/
def replace_all (s pat sub : Str) : Str :=
  match s with
  | [] => []
  | c :: rest =>
    if h : pat ≠ [] ∧ starts_with (c :: rest) pat then
      sub ++ replace_all ((c :: rest).drop pat.length) pat sub
    else
      c :: replace_all rest pat sub
  termination_by s.length
  decreasing_by
    · simp only [List.length_drop, List.length_cons]
      have : 0 < pat.length := List.length_pos.mpr h.1
      omega
    · simp

/-- `normalise_legacy_callouts` from `preprocessor.rs`: rewrite the four
hard-coded legacy block-styling directive strings into admonition calls. -/
def normalise_legacy_callouts (markdown : Str) : Str :=
  let r1 := replace_all markdown
    "<!--raw-typst #block(fill: luma(245), inset: 8pt, radius: 6pt, stroke: 0.5pt + luma(200))".toList
    "<!--raw-typst #admonition(\"note\")".toList
  let r2 := replace_all r1
    "<!--raw-typst #block(fill: rgb(224,242,254), inset: 8pt, radius: 6pt, stroke: 0.5pt + rgb(186,230,253))".toList
    "<!--raw-typst #admonition(\"info\")".toList
  let r3 := replace_all r2
    "<!--raw-typst #block(fill: rgb(220,252,231), inset: 8pt, radius: 6pt, stroke: 0.5pt + rgb(187,247,208))".toList
    "<!--raw-typst #admonition(\"tip\")".toList
  replace_all r3
    "<!--raw-typst #block(fill: rgb(254,249,195), inset: 8pt, radius: 6pt, stroke: 0.5pt + rgb(253,224,71))".toList
    "<!--raw-typst #admonition(\"warning\")".toList

/-- The zero-width space U+200B inserted by `fix_cmarker_quirks`. -/
def zws : Char := Char.ofNat 8203

/-- A line that (after left-trim) starts with `>`. -/
def line_is_blockquote (l : Str) : Bool := starts_with (trim_start l) ">".toList

/-- Loop body of `fix_cmarker_quirks`, recursing over the `split('\n')`
lines; `prevBq` records whether the previous line was a blockquote line. -/
def fix_cmarker_go (prevBq : Bool) : List Str → Str
  | [] => []
  | [line] => line
  | line :: next :: rest =>
    let cur := line_is_blockquote line
    let nxt := line_is_blockquote next
    line ++
      (if nxt ∧ ¬ cur then ['\n', zws] else []) ++
      (if cur ∧ ¬ nxt then ['\n', zws]
        else if prevBq ∧ ¬ cur ∧ ¬ nxt then ['\n', zws] else []) ++
      ['\n'] ++ fix_cmarker_go cur (next :: rest)

/-- `fix_cmarker_quirks` from `preprocessor.rs`: insert zero-width-space
separator lines around blockquote runs. -/
def fix_cmarker_quirks (markdown : Str) : Str :=
  fix_cmarker_go false (split_nl markdown)

/-! ## Anchor injection (`inject_anchors`) -/

/-- Start tags of the `pulldown_cmark` event stream (the constructors the
source matches on, plus the inline tags, which `is_block_level` rejects). -/
inductive Tag where
  | paragraph
  | heading
  | blockQuote
  | codeBlock
  | list
  | item
  | footnoteDefinition
  | table
  | tableHead
  | tableRow
  | tableCell
  | emphasis
  | strong
  | strikethrough
  | link
  | image
  deriving DecidableEq, Repr

/-- `is_block_level` from `preprocessor.rs`. -/
def is_block_level : Tag → Bool
  | .paragraph | .heading | .blockQuote | .codeBlock | .list | .item
  | .footnoteDefinition | .table | .tableHead | .tableRow | .tableCell => true
  | _ => false

/-- One `Event::Start(tag)` of the parser's `into_offset_iter`, with the
start byte offset of its source range.  The parser itself is an external
crate (`pulldown_cmark`); the event list is passed in as a parameter. -/
structure BlockEvent where
  tag : Tag
  offset : Nat
  deriving DecidableEq, Repr

/-- `AnchorMeta` from `preprocessor.rs`. -/
structure AnchorMeta where
  id : Str
  offset : Nat
  line : Nat
  column : Nat
  deriving DecidableEq, Repr

/-- `EditorPosition` from `preprocessor.rs`. -/
structure EditorPosition where
  offset : Nat
  line : Nat
  column : Nat
  deriving DecidableEq, Repr

/-- `PdfPosition` from `preprocessor.rs`.  The `f32` coordinates are only
carried around, never computed with, so they are modelled opaquely by
integers. -/
structure PdfPosition where
  page : Nat
  x : Int
  y : Int
  deriving DecidableEq, Repr

/-- `AnchorEntry` from `preprocessor.rs`. -/
structure AnchorEntry where
  id : Str
  editor : EditorPosition
  pdf : Option PdfPosition
  deriving DecidableEq, Repr

/-- `SourceMapPayload` from `preprocessor.rs` (`Default` is the empty
anchor list). -/
structure SourceMapPayload where
  anchors : List AnchorEntry
  deriving DecidableEq, Repr

/-- `PreprocessorOutput` from `preprocessor.rs`. -/
structure PreprocessorOutput where
  markdown : Str
  anchors : List AnchorMeta
  deriving DecidableEq, Repr

/-- `offset_to_line_column` from `preprocessor.rs`: count newlines and
columns over `source[..offset]`. -/
def offset_to_line_column (source : Str) (offset : Nat) : Nat × Nat :=
  (source.take offset).foldl
    (fun lc ch => if ch = '\n' then (lc.1 + 1, 0) else (lc.1, lc.2 + 1))
    ((0 : Nat), (0 : Nat))

/-- `build_anchor_markup` from `preprocessor.rs`: a leading newline when
the offset is not at a line start, then the comment-wrapped label call. -/
def build_anchor_markup (source : Str) (offset : Nat) (id : Str) : Str :=
  let lead : Str :=
    if offset > 0 ∧ (source.take offset).getLast? ≠ some '\n' then ['\n'] else []
  lead ++ "<!--raw-typst #label(\"".toList ++ id ++ "\") -->\n".toList

/-- Decimal digit string of a natural number (Rust `format!` of a `usize`). -/
def nat_str (n : Nat) : Str := Nat.toDigits 10 n

/-- Accumulator of the `inject_anchors` event loop: the pending
`(offset, text)` insertions, the anchor list, and the offsets already
carrying an anchor (the Rust `HashSet` modelled as a list). -/
structure InjectState where
  insertions : List (Nat × Str)
  anchors : List AnchorMeta
  seen : List Nat
  deriving Repr

/-- Body of the event loop of `inject_anchors`: skip non-block-level tags
and already-seen offsets, otherwise record an insertion and an anchor. -/
def inject_step (md : Str) (st : InjectState) (e : BlockEvent) : InjectState :=
  if ¬ is_block_level e.tag then st
  else if e.offset ∈ st.seen then st
  else
    let id := "tf-".toList ++ nat_str e.offset ++ ['-'] ++ nat_str st.anchors.length
    let lc := offset_to_line_column md e.offset
    let markup := build_anchor_markup md e.offset id
    { insertions := st.insertions ++ [(e.offset, markup)]
      anchors := st.anchors ++ [⟨id, e.offset, lc.1, lc.2⟩]
      seen := st.seen ++ [e.offset] }

/-- Stable insertion into an offset-sorted list, placing the new pair
after existing pairs of the same offset. -/
def insert_sorted (x : Nat × Str) : List (Nat × Str) → List (Nat × Str)
  | [] => [x]
  | y :: ys => if x.1 < y.1 then x :: y :: ys else y :: insert_sorted x ys

/-- Rust `Vec::sort_by_key(|(offset, _)| *offset)`: a stable ascending
sort by offset (modelled by stable insertion sort, which computes the same
list as any stable sort). -/
def sort_by_offset (l : List (Nat × Str)) : List (Nat × Str) :=
  l.foldl (fun acc x => insert_sorted x acc) []

/-- Rust `String::insert_str`. -/
def insert_str (s : Str) (offset : Nat) (t : Str) : Str :=
  s.take offset ++ t ++ s.drop offset

/-- The insertion-application tail of `inject_anchors`: sort the
`(offset, text)` pairs ascending by offset, then apply them to the base
string in descending offset order. -/
def apply_insertions (md : Str) (ins : List (Nat × Str)) : Str :=
  ((sort_by_offset ins).reverse).foldl (fun acc p => insert_str acc p.1 p.2) md

/-- `inject_anchors` from `preprocessor.rs`.  The `events` parameter is
the list of `Event::Start` events (with range start offsets) that
`pulldown_cmark` produces for `md`.  The source's guard
`if !seen_offsets.contains(&0)` is taken on a freshly created empty set
and therefore always passes; the document-start anchor is emitted
unconditionally. -/
def inject_anchors (md : Str) (events : List BlockEvent) : PreprocessorOutput :=
  let docId := "tf-doc-start".toList
  let st0 : InjectState :=
    { insertions := [(0, build_anchor_markup md 0 docId)]
      anchors := [⟨docId, 0, 0, 0⟩]
      seen := [0] }
  let stF := events.foldl (inject_step md) st0
  ⟨apply_insertions md stF.insertions, stF.anchors⟩

/-- `preprocess_markdown` from `preprocessor.rs`, parameterized by the
external block parser (`pulldown_cmark`), which is applied to the
cmarker-fixed text exactly as in the source. -/
def preprocess_markdown (parse : Str → List BlockEvent) (markdown : Str) :
    PreprocessorOutput :=
  let admonition_transformed := transform_admonitions markdown
  let legacy_normalised := normalise_legacy_callouts admonition_transformed
  let cmarker_fixed := fix_cmarker_quirks legacy_normalised
  inject_anchors cmarker_fixed (parse cmarker_fixed)

/-! ## Source map building (`renderer.rs` / `attach_pdf_positions`) -/

/-- `HashMap::get` on the anchor-id → position map (modelled as an
association list). -/
def lookup_pos (m : List (Str × PdfPosition)) (k : Str) : Option PdfPosition :=
  (m.find? (fun p => p.1 == k)).map Prod.snd

/-- `attach_pdf_positions` from `preprocessor.rs`: left-join the anchor
list against the resolved-position map. -/
def attach_pdf_positions (anchors : List AnchorMeta)
    (positions : List (Str × PdfPosition)) : SourceMapPayload :=
  ⟨anchors.map (fun a =>
    ⟨a.id, ⟨a.offset, a.line, a.column⟩, lookup_pos positions a.id⟩)⟩

/-- `build_source_map` from `renderer.rs`, with the Typst subprocess
modelled as an oracle `query` from the selector string to either `none`
(spawn failure, non-zero exit, or unparsable JSON — all of which leave
`pdf_lookup` empty in the source) or `some m` (the anchor-id → position
map extracted from the query's JSON output).  Besides the payload, the
model returns the list of selectors actually queried, so that theorems
can speak about which compiler queries the function issues. -/
def build_source_map_run
    (query : Str → Option (List (Str × PdfPosition)))
    (anchors : List AnchorMeta) : SourceMapPayload × List Str :=
  if anchors.isEmpty then (⟨[]⟩, [])
  else
    let pdf_lookup := (query "label()".toList).getD []
    (attach_pdf_positions anchors pdf_lookup, ["label()".toList])

/-! ## Image path rewriting (`utils/typst.rs`, `utils/filesystem.rs`) -/

/-- Filesystem oracle for the side effects of `absolute_norm`:
`canonicalize` (Rust `Path::canonicalize`, `none` on failure),
`destExists` (`Path::exists` on a copy destination), `copyOk`
(`fs::copy(..).is_ok()`) and `hashHex` (the `format!("{:x}", hash)`
rendering of the `DefaultHasher` hash of the source path). -/
structure FSOracle where
  canonicalize : Str → Option Str
  destExists : Str → Bool
  copyOk : Str → Str → Bool
  hashHex : Str → Str

/-- Characters kept by `sanitize_filename` (regex class `[a-zA-Z0-9\-_.]`). -/
def sanitize_ok (c : Char) : Bool :=
  ('a' ≤ c ∧ c ≤ 'z') || ('A' ≤ c ∧ c ≤ 'Z') || ('0' ≤ c ∧ c ≤ '9') ||
    c == '-' || c == '_' || c == '.'

/-- Replace every maximal run of disallowed characters by a single `-`
(the `replace_all` of regex `[^a-zA-Z0-9\-_.]+` with `-`); `inRun` tracks
whether the previous character was part of such a run. -/
def sanitize_go (inRun : Bool) : Str → Str
  | [] => []
  | c :: rest =>
    if sanitize_ok c then c :: sanitize_go false rest
    else if inRun then sanitize_go true rest
    else '-' :: sanitize_go true rest

/-- `sanitize_filename` from `utils/filesystem.rs`. -/
def sanitize_filename (name : Str) : Str :=
  let s := sanitize_go false name
  if s = [] then "file.txt".toList else s

/-- Rust `Path::join` for a forward-slash path model: an absolute second
argument replaces the base. -/
def path_join (base rel : Str) : Str :=
  if starts_with rel "/".toList then rel
  else if base = [] then rel
  else if base.getLast? = some '/' then base ++ rel
  else base ++ '/' :: rel

/-- Rust `Path::parent` for a forward-slash path model. -/
def parent_path (p : Str) : Option Str :=
  let q := if p.getLast? = some '/' ∧ p.length > 1 then p.dropLast else p
  match (q.reverse.findIdx? (fun c => c == '/')) with
  | none => if q = [] then none else some []
  | some ri =>
    let i := q.length - 1 - ri
    if i = 0 then (if q.length = 1 then none else some "/".toList) else some (q.take i)

/-- Rust `Path::file_name` for a forward-slash path model. -/
def file_name (p : Str) : Option Str :=
  let q := if p.getLast? = some '/' then p.dropLast else p
  let name := (q.reverse.takeWhile (fun c => c ≠ '/')).reverse
  if name = [] ∨ name = "..".toList then none else some name

/-- Rust `Path::file_stem` / `Path::extension`, returned as a pair
`(stem, extension?)`: split at the final dot, except that a name whose
only dot is the leading one is all stem. -/
def file_stem_ext (name : Str) : Str × Option Str :=
  match (name.reverse.findIdx? (fun c => c == '.')) with
  | none => (name, none)
  | some ri =>
    let i := name.length - 1 - ri
    if i = 0 then (name, none)
    else (name.take i, some (name.drop (i + 1)))

/-- `is_external` from `utils/typst.rs`. -/
def is_external (p : Str) : Bool :=
  let lower := p.map Char.toLower
  starts_with lower "http://".toList || starts_with lower "https://".toList ||
    starts_with lower "data:".toList || starts_with lower "file:".toList

/-- Rust `str::trim_start_matches("//?/")`: strip the UNC verbatim prefix
repeatedly. -/
def strip_verbatim (s : Str) : Str :=
  if h : starts_with s "//?/".toList then
    strip_verbatim (s.drop 4)
  else s
  termination_by s.length
  decreasing_by
    have : 4 ≤ s.length := by
      cases s with
      | nil => simp [starts_with] at h
      | cons a t =>
        cases t with
        | nil => simp [starts_with] at h
        | cons b t2 =>
          cases t2 with
          | nil => simp [starts_with] at h
          | cons c t3 =>
            cases t3 with
            | nil => simp [starts_with] at h
            | cons d t4 => simp only [List.length_cons]; omega
    simp only [List.length_drop]
    have hne : s ≠ [] := by
      intro hn
      rw [hn] at h
      simp [starts_with] at h
    have : 0 < s.length := List.length_pos.mpr hne
    omega

/-- The `content_root_str` normalisation inside `absolute_norm`: forward
slashes, and no trailing slash. -/
def content_root_str (contentRoot : Str) : Str :=
  let crs0 := contentRoot.map (fun c => if c = '\\' then '/' else c)
  if crs0.getLast? = some '/' then crs0.dropLast else crs0

/-- The re-wrap condition used in every return branch of `absolute_norm`:
wrap for Markdown when the original was angle-wrapped or the rewritten
path contains a space or parenthesis. -/
def needs_wrap (hadAngle : Bool) (s : Str) : Bool :=
  hadAngle || s.contains ' ' || s.contains '(' || s.contains ')'

/-- Apply the Markdown angle-bracket re-wrap when requested. -/
def wrap_md (wrap hadAngle : Bool) (s : Str) : Str :=
  if wrap ∧ needs_wrap hadAngle s then '<' :: s ++ ['>'] else s

/-- The out-of-tree copy branch of `absolute_norm` (its final
`if let Some(assets_dir) = assets_root` block): sanitize and truncate the
filename, disambiguate an existing destination with a short hash of the
source path, attempt the copy, and on success emit `/assets/<final-name>`;
`none` means the branch fell through to the absolute-path fallback. -/
def assets_copy_branch (fs : FSOracle) (abs : Str) (assetsRoot : Option Str)
    (wrap hadAngle : Bool) : Option Str :=
  match assetsRoot with
  | none => none
  | some assetsDir =>
    match file_name abs with
    | none => none
    | some fnameOs =>
      let sanitized := sanitize_filename fnameOs
      let se := file_stem_ext sanitized
      let stem := se.1
      let ext := se.2.getD []
      let truncatedStem := if stem.length > 100 then stem.take 100 else stem
      let fname := if ext = [] then truncatedStem else truncatedStem ++ '.' :: ext
      let dest := path_join assetsDir fname
      let fname2 :=
        if fs.destExists dest then
          let hashStr := fs.hashHex abs
          let hashShort := hashStr.take (min 8 hashStr.length)
          if ext = [] then truncatedStem ++ '-' :: hashShort
          else truncatedStem ++ '-' :: hashShort ++ '.' :: ext
        else fname
      let dest2 := if fs.destExists dest then path_join assetsDir fname2 else dest
      if fs.copyOk abs dest2 then
        some (wrap_md wrap hadAngle ("/assets/".toList ++ fname2))
      else none

/-- `absolute_norm` from `utils/typst.rs` (POSIX path model: a path is
absolute iff it starts with `/`, plus the source's explicit second-char
colon test for Windows drive paths). -/
def absolute_norm (fs : FSOracle) (base : Str) (raw : Str)
    (assetsRoot : Option Str) (wrap : Bool) : Str :=
  if is_external raw then raw
  else
    let trimmed := trim raw
    let hadAngle := starts_with trimmed "<".toList ∧ trimmed.getLast? = some '>'
    let unwrapped := if starts_with trimmed "<".toList ∧ trimmed.getLast? = some '>'
      then (trimmed.drop 1).dropLast else trimmed
    let normalizedUnwrapped := unwrapped.map (fun c => if c = '\\' then '/' else c)
    if starts_with normalizedUnwrapped "assets/".toList ∨
        normalizedUnwrapped = "assets".toList then
      wrap_md wrap hadAngle
        ('/' :: normalizedUnwrapped.dropWhile (fun c => c == '/'))
    else
      let contentRootOpt := assetsRoot.bind parent_path
      let isAbs := starts_with unwrapped "/".toList ∨
        (unwrapped.drop 1).head? = some ':'
      let joined := if isAbs then normalizedUnwrapped
        else path_join base normalizedUnwrapped
      let abs := (fs.canonicalize joined).getD joined
      let pathStr :=
        strip_verbatim (abs.map (fun c => if c = '\\' then '/' else c))
      let contentRootHit :=
        match contentRootOpt with
        | none => none
        | some contentRoot =>
          let crs := content_root_str contentRoot
          if starts_with pathStr crs then
            let rel0 := pathStr.drop crs.length
            let rel := if ¬ starts_with rel0 "/".toList then '/' :: rel0 else rel0
            some (wrap_md wrap hadAngle rel)
          else none
      match contentRootHit with
      | some out => out
      | none =>
        match assets_copy_branch fs abs assetsRoot wrap hadAngle with
        | some out => out
        | none => wrap_md wrap hadAngle pathStr

/-- Scan the characters after `![` for the regex fragment `[^\]]*\]\(`:
collect the alt text (which may not contain `]`) up to a `](`; `none`
when the `]` is missing or not followed by `(`. -/
def scan_alt : Str → Option (Str × Str)
  | [] => none
  | c :: rest =>
    if c = ']' then
      match rest with
      | '(' :: r => some ([], r)
      | _ => none
    else (scan_alt rest).map (fun pr => (c :: pr.1, pr.2))

/-- Scan for the regex fragment `[^)]+\)`: collect the parenthesized text
(which may not contain `)`) up to the closing `)`. -/
def scan_paren : Str → Option (Str × Str)
  | [] => none
  | c :: rest =>
    if c = ')' then some ([], rest)
    else (scan_paren rest).map (fun pr => (c :: pr.1, pr.2))

theorem scan_alt_rest_lt : ∀ s pr, scan_alt s = some pr → pr.2.length < s.length := by
  intro s
  induction s with
  | nil => intro pr h; simp [scan_alt] at h
  | cons c rest ih =>
    intro pr h
    simp only [scan_alt] at h
    split at h
    · cases rest with
      | nil => simp at h
      | cons d r =>
        by_cases hd : d = '('
        · subst hd
          simp at h
          rw [← h]
          simp
          omega
        · cases d
          simp_all
    · match hs : scan_alt rest with
      | none => rw [hs] at h; simp at h
      | some pr2 =>
        rw [hs] at h
        simp at h
        have := ih pr2 hs
        rw [← h]
        simp
        omega

theorem scan_paren_rest_lt : ∀ s pr, scan_paren s = some pr → pr.2.length < s.length := by
  intro s
  induction s with
  | nil => intro pr h; simp [scan_paren] at h
  | cons c rest ih =>
    intro pr h
    simp only [scan_paren] at h
    split at h
    · simp at h
      rw [← h]
      simp
    · match hs : scan_paren rest with
      | none => rw [hs] at h; simp at h
      | some pr2 =>
        rw [hs] at h
        simp at h
        have := ih pr2 hs
        rw [← h]
        simp
        omega

/-- The quote-aware title split inside the Markdown image replacement
closure: walk the (already trimmed) captured text, toggling an in-quotes
flag on `"`, and split at the first unquoted space or tab. -/
def find_title_split : Str → Bool → Nat → Option Nat
  | [], _, _ => none
  | c :: rest, inQ, i =>
    if c = '"' then find_title_split rest (¬ inQ) (i + 1)
    else if (c = ' ' ∨ c = '\t') ∧ ¬ inQ then some i
    else find_title_split rest inQ (i + 1)

/-- The Markdown image replacement closure from
`rewrite_image_paths_in_markdown`: trim the captured text, split off an
optional title, rewrite the path part with `absolute_norm`
(`wrap_for_markdown = true`), and emit `![](..)` — the alt text captured
by the regex is not used. -/
def md_img_replacement (fs : FSOracle) (base : Str) (assetsRoot : Option Str)
    (captured : Str) : Str :=
  let inside := trim captured
  let split := find_title_split inside false 0
  let pathPart := match split with
    | none => inside
    | some idx => trim (inside.take idx)
  let titlePart : Option Str := match split with
    | none => none
    | some idx => some (trim (inside.drop idx))
  let abs := absolute_norm fs base pathPart assetsRoot true
  match titlePart with
  | some title => "![](".toList ++ abs ++ ' ' :: title ++ [')']
  | none => "![](".toList ++ abs ++ [')']

/-- `Regex::replace_all` for the Markdown image pattern
`!\[[^\]]*\]\(([^)]+)\)`: leftmost non-overlapping matches, each match
replaced by `repl` applied to the text captured inside the parentheses. -/
def replace_md_images (repl : Str → Str) : Str → Str
  | [] => []
  | c :: rest =>
    if h : c = '!' ∧ rest.head? = some '[' then
      match ha : scan_alt (rest.drop 1) with
      | some pr =>
        match hp : scan_paren pr.2 with
        | some pr2 =>
          if pr2.1 = [] then c :: replace_md_images repl rest
          else repl pr2.1 ++ replace_md_images repl pr2.2
        | none => c :: replace_md_images repl rest
      | none => c :: replace_md_images repl rest
    else c :: replace_md_images repl rest
  termination_by s => s.length
  decreasing_by
    · simp
    · have h1 := scan_paren_rest_lt _ _ hp
      have h2 := scan_alt_rest_lt _ _ ha
      have h3 : (rest.drop 1).length ≤ rest.length := by
        simp only [List.length_drop]; omega
      simp only [List.length_cons]
      omega
    · simp
    · simp
    · simp

/-- For the HTML pass, match the regex fragment `\s+src=` at the head of
`s`: a non-empty whitespace run immediately followed by `src=`.  Because
`s` of `src=` is not a whitespace character, the run length is forced, so
this fragment matches deterministically. -/
def strip_ws_src (s : Str) : Option Str :=
  let ws := s.takeWhile is_ws
  if ws ≠ [] ∧ starts_with (s.drop ws.length) "src=".toList then
    some (s.drop (ws.length + 4))
  else none

/-- The lazy `([^>]*?)` before `\s+src=` in the HTML image regex: the
shortest `>`-free prefix after which `\s+src=` matches; `none` when a `>`
or the end of input intervenes. -/
def scan_before_src : Str → Option (Str × Str)
  | [] => none
  | c :: rest =>
    match strip_ws_src (c :: rest) with
    | some r => some ([], r)
    | none =>
      if c = '>' then none
      else (scan_before_src rest).map (fun pr => (c :: pr.1, pr.2))

/-- The regex fragment `(["'])([^"']+)(["'])`: an opening quote, a
non-empty quote-free run, and a closing quote (the two quote characters
are captured independently and need not agree). -/
def parse_quoted (s : Str) : Option (Char × Str × Char × Str) :=
  match s with
  | [] => none
  | q1 :: rest =>
    if q1 = '"' ∨ q1 = '\'' then
      let src := rest.takeWhile (fun c => ¬ (c = '"' ∨ c = '\''))
      if src = [] then none
      else
        match rest.drop src.length with
        | [] => none
        | q2 :: rest2 =>
          if q2 = '"' ∨ q2 = '\'' then some (q1, src, q2, rest2) else none
    else none

/-- The regex fragment `([^>]*)>` closing the HTML image tag. -/
def scan_tag_close : Str → Option (Str × Str)
  | [] => none
  | c :: rest =>
    if c = '>' then some ([], rest)
    else (scan_tag_close rest).map (fun pr => (c :: pr.1, pr.2))

/-- Attempt the HTML image regex
`<img([^>]*?)\s+src=(["'])([^"']+)(["'])([^>]*)>` at a position directly
after `<img`, returning the captures `(before, quote, src, after-quote,
after)` and the remainder of the input. -/
def html_img_attempt (s : Str) : Option (Str × Char × Str × Char × Str × Str) :=
  match scan_before_src s with
  | none => none
  | some (before, r1) =>
    match parse_quoted r1 with
    | none => none
    | some (q1, src, q2, r2) =>
      match scan_tag_close r2 with
      | none => none
      | some (after, rem) => some (before, q1, src, q2, after, rem)

theorem strip_ws_src_length_le (s : Str) (r : Str) (h : strip_ws_src s = some r) :
    r.length ≤ s.length := by
  simp only [strip_ws_src] at h
  split at h
  · simp at h
    rw [← h]
    simp
  · simp at h

theorem scan_before_src_length_le :
    ∀ s pr, scan_before_src s = some pr → pr.2.length ≤ s.length := by
  intro s
  induction s with
  | nil => intro pr h; simp [scan_before_src] at h
  | cons c rest ih =>
    intro pr h
    simp only [scan_before_src] at h
    split at h
    · rename_i r hr
      simp at h
      rw [← h]
      exact strip_ws_src_length_le _ _ hr
    · split at h
      · simp at h
      · match hs : scan_before_src rest with
        | none => rw [hs] at h; simp at h
        | some pr2 =>
          rw [hs] at h
          simp at h
          have := ih pr2 hs
          rw [← h]
          simp
          omega

theorem parse_quoted_length_lt (s : Str) (t : Char × Str × Char × Str)
    (h : parse_quoted s = some t) : t.2.2.2.length < s.length := by
  match s with
  | [] => simp [parse_quoted] at h
  | q1 :: rest =>
    simp only [parse_quoted] at h
    split at h
    · split at h
      · simp at h
      · split at h
        · simp at h
        · rename_i q2 rest2 heq
          split at h
          · simp at h
            rw [← h]
            have hlen := congrArg List.length heq
            simp only [List.length_drop, List.length_cons] at hlen
            simp only [List.length_cons]
            omega
          · simp at h
    · simp at h

theorem scan_tag_close_length_lt :
    ∀ s pr, scan_tag_close s = some pr → pr.2.length < s.length := by
  intro s
  induction s with
  | nil => intro pr h; simp [scan_tag_close] at h
  | cons c rest ih =>
    intro pr h
    simp only [scan_tag_close] at h
    split at h
    · simp at h
      rw [← h]
      simp
    · match hs : scan_tag_close rest with
      | none => rw [hs] at h; simp at h
      | some pr2 =>
        rw [hs] at h
        simp at h
        have := ih pr2 hs
        rw [← h]
        simp
        omega

theorem html_img_attempt_length_lt (s : Str) (t : Str × Char × Str × Char × Str × Str)
    (h : html_img_attempt s = some t) : t.2.2.2.2.2.length < s.length := by
  simp only [html_img_attempt] at h
  match h1 : scan_before_src s with
  | none => rw [h1] at h; simp at h
  | some (before, r1) =>
    rw [h1] at h
    match h2 : parse_quoted r1 with
    | none => simp [h2] at h
    | some (q1, src, q2, r2) =>
      simp only [h2] at h
      match h3 : scan_tag_close r2 with
      | none => simp [h3] at h
      | some (after, rem) =>
        simp only [h3] at h
        simp at h
        have e1 := scan_before_src_length_le s (before, r1) h1
        have e2 := parse_quoted_length_lt r1 (q1, src, q2, r2) h2
        have e3 := scan_tag_close_length_lt r2 (after, rem) h3
        simp at e1 e2 e3
        rw [← h]
        simp
        omega

/-- `Regex::replace_all` for the HTML image pattern: each match of
`<img([^>]*?)\s+src=(["'])([^"']+)(["'])([^>]*)>` is re-emitted with the
`src` value rewritten by `repl` and the whitespace run collapsed to a
single space, exactly as the source's `format!`. -/
def replace_html_imgs (repl : Str → Str) : Str → Str
  | [] => []
  | c :: rest =>
    if c = '<' ∧ starts_with rest "img".toList then
      match hm : html_img_attempt (rest.drop 3) with
      | some t =>
        "<img".toList ++ t.1 ++ " src=".toList ++ t.2.1 ::
          repl t.2.2.1 ++ t.2.2.2.1 :: t.2.2.2.2.1 ++ '>' ::
          replace_html_imgs repl t.2.2.2.2.2
      | none => c :: replace_html_imgs repl rest
    else c :: replace_html_imgs repl rest
  termination_by s => s.length
  decreasing_by
    · have h1 := html_img_attempt_length_lt _ _ hm
      have h2 : (rest.drop 3).length ≤ rest.length := by
        simp only [List.length_drop]; omega
      simp only [List.length_cons]
      omega
    · simp
    · simp

/-- Attempt the tail `\(\s*(["'])([^"']+)(["'])` of the raw-Typst figure
regex at a position directly after `#fig` or `#image`: an opening
parenthesis, optional whitespace, and a quoted path. -/
def fig_attempt (s : Str) : Option (Char × Str × Char × Str) :=
  match s with
  | [] => none
  | c :: rest =>
    if c = '(' then
      let ws := rest.takeWhile is_ws
      parse_quoted (rest.drop ws.length)
    else none

theorem fig_attempt_length_lt (s : Str) (t : Char × Str × Char × Str)
    (h : fig_attempt s = some t) : t.2.2.2.length < s.length := by
  match s with
  | [] => simp [fig_attempt] at h
  | c :: rest =>
    simp only [fig_attempt] at h
    split at h
    · have := parse_quoted_length_lt _ _ h
      have h2 : (rest.drop (rest.takeWhile is_ws).length).length ≤ rest.length := by
        simp only [List.length_drop]; omega
      simp only [List.length_cons]
      omega
    · simp at h

/-- `Regex::replace_all` for the raw Typst figure pattern
`#(fig|image)\(\s*(["'])([^"']+)(["'])`: the path is rewritten by `repl`,
the whitespace after `(` is dropped and the opening quote character is
emitted on both sides, exactly as the source's `format!` (which discards
the captured closing quote). -/
def replace_raw_figs (repl : Str → Str) : Str → Str
  | [] => []
  | c :: rest =>
    if c = '#' ∧ starts_with rest "fig(".toList then
      match hm : fig_attempt (rest.drop 3) with
      | some t =>
        "#fig(".toList ++ t.1 :: repl t.2.1 ++ t.1 ::
          replace_raw_figs repl t.2.2.2
      | none => c :: replace_raw_figs repl rest
    else if c = '#' ∧ starts_with rest "image(".toList then
      match hm : fig_attempt (rest.drop 5) with
      | some t =>
        "#image(".toList ++ t.1 :: repl t.2.1 ++ t.1 ::
          replace_raw_figs repl t.2.2.2
      | none => c :: replace_raw_figs repl rest
    else c :: replace_raw_figs repl rest
  termination_by s => s.length
  decreasing_by
    · have h1 := fig_attempt_length_lt _ _ hm
      have h2 : (rest.drop 3).length ≤ rest.length := by
        simp only [List.length_drop]; omega
      simp only [List.length_cons]
      omega
    · simp
    · have h1 := fig_attempt_length_lt _ _ hm
      have h2 : (rest.drop 5).length ≤ rest.length := by
        simp only [List.length_drop]; omega
      simp only [List.length_cons]
      omega
    · simp
    · simp

/-- `rewrite_image_paths_in_markdown` from `utils/typst.rs`: the three
replacement passes (Markdown images, HTML images, raw Typst figure calls)
applied in order. -/
def rewrite_image_paths_in_markdown (fs : FSOracle) (input : Str)
    (base : Str) (assetsRoot : Option Str) : Str :=
  let result1 := replace_md_images (md_img_replacement fs base assetsRoot) input
  let result2 := replace_html_imgs
    (fun src => absolute_norm fs base src assetsRoot false) result1
  replace_raw_figs
    (fun p => absolute_norm fs base p assetsRoot false) result2

/-! ## Properties of the anchor-injection loop -/

/-- Offsets of the anchors recorded in an injection state. -/
def anchor_offsets (st : InjectState) : List Nat :=
  st.anchors.map AnchorMeta.offset

theorem inject_step_monotone (md : Str) (st : InjectState) (e : BlockEvent) :
    ∀ o ∈ anchor_offsets st, o ∈ anchor_offsets (inject_step md st e) := by
  intro o ho
  simp only [inject_step]
  split
  · exact ho
  · split
    · exact ho
    · simp only [anchor_offsets, List.map_append, List.mem_append]
      exact Or.inl ho

theorem inject_step_inv (md : Str) (st : InjectState) (e : BlockEvent)
    (hnd : (anchor_offsets st).Nodup)
    (hiff : ∀ o, o ∈ st.seen ↔ o ∈ anchor_offsets st) :
    (anchor_offsets (inject_step md st e)).Nodup ∧
      (∀ o, o ∈ (inject_step md st e).seen ↔
        o ∈ anchor_offsets (inject_step md st e)) := by
  simp only [inject_step]
  split
  · exact ⟨hnd, hiff⟩
  · split
    · exact ⟨hnd, hiff⟩
    · rename_i hblk hseen
      constructor
      · simp only [anchor_offsets, List.map_append, List.map_cons, List.map_nil]
        rw [List.nodup_append]
        refine ⟨hnd, List.nodup_singleton _, ?_⟩
        intro o ho
        simp only [List.mem_singleton]
        intro hco
        rw [hco] at ho
        exact hseen ((hiff e.offset).mpr ho)
      · intro o
        simp only [List.mem_append, List.mem_singleton, anchor_offsets,
          List.map_append, List.map_cons, List.map_nil]
        constructor
        · rintro (h | h)
          · exact Or.inl ((hiff o).mp h)
          · exact Or.inr (by simp [h])
        · rintro (h | h)
          · exact Or.inl ((hiff o).mpr h)
          · exact Or.inr (by simpa using h)

theorem inject_loop_props (md : Str) :
    ∀ (events : List BlockEvent) (st : InjectState),
      (anchor_offsets st).Nodup →
      (∀ o, o ∈ st.seen ↔ o ∈ anchor_offsets st) →
      (anchor_offsets (events.foldl (inject_step md) st)).Nodup ∧
        (∀ o, o ∈ (events.foldl (inject_step md) st).seen ↔
          o ∈ anchor_offsets (events.foldl (inject_step md) st)) ∧
        (∀ o ∈ anchor_offsets st,
          o ∈ anchor_offsets (events.foldl (inject_step md) st)) ∧
        (∀ e ∈ events, is_block_level e.tag = true →
          e.offset ∈ anchor_offsets (events.foldl (inject_step md) st)) := by
  intro events
  induction events with
  | nil =>
    intro st hnd hiff
    exact ⟨hnd, hiff, fun o h => h, by simp⟩
  | cons e es ih =>
    intro st hnd hiff
    have hstep := inject_step_inv md st e hnd hiff
    have ihall := ih (inject_step md st e) hstep.1 hstep.2
    simp only [List.foldl_cons]
    refine ⟨ihall.1, ihall.2.1, ?_, ?_⟩
    · intro o ho
      exact ihall.2.2.1 o (inject_step_monotone md st e o ho)
    · intro e2 he2 hblk
      rcases List.mem_cons.mp he2 with he2 | he2
      · subst he2
        have hmem : e2.offset ∈ anchor_offsets (inject_step md st e2) := by
          simp only [inject_step]
          split
          · rename_i hb; rw [hblk] at hb; simp at hb
          · split
            · rename_i hseen
              exact (hiff e2.offset).mp hseen
            · simp [anchor_offsets]
        exact ihall.2.2.1 e2.offset hmem
      · exact ihall.2.2.2 e2 he2 hblk

theorem inject_loop_bound (md : Str) (n : Nat) :
    ∀ (events : List BlockEvent) (st : InjectState),
      (∀ o ∈ anchor_offsets st, o ≤ n) →
      (∀ e ∈ events, e.offset ≤ n) →
      ∀ o ∈ anchor_offsets (events.foldl (inject_step md) st), o ≤ n := by
  intro events
  induction events with
  | nil => intro st hst _ o ho; exact hst o ho
  | cons e es ih =>
    intro st hst hev o ho
    simp only [List.foldl_cons] at ho
    refine ih (inject_step md st e) ?_ (fun e2 he2 => hev e2 (List.mem_cons_of_mem e he2)) o ho
    intro o2 ho2
    simp only [inject_step] at ho2
    split at ho2
    · exact hst o2 ho2
    · split at ho2
      · exact hst o2 ho2
      · simp only [anchor_offsets, List.map_append, List.map_cons, List.map_nil,
          List.mem_append, List.mem_singleton] at ho2
        rcases ho2 with h | h
        · exact hst o2 h
        · rw [h]
          exact hev e (List.mem_cons_self e es)

/-! ## Fixtures for the blockquote counterexample

For the caller input `"a\n\n> q\n"`, the admonition transform and the
legacy-callout normalisation leave the text unchanged, and
`fix_cmarker_quirks` inserts a zero-width-space separator line before and
after the blockquote, producing `bq_fixed`.  On that text,
`pulldown_cmark` emits start events for the two paragraphs, the
blockquote container and the paragraph nested inside it; `ev_bq` lists
them with their source offsets (character offsets in this model). -/

def bq_fixed : Str := "a\n\n​\n> q\n​\n".toList

def ev_bq : List BlockEvent :=
  [⟨Tag.paragraph, 0⟩, ⟨Tag.paragraph, 3⟩, ⟨Tag.blockQuote, 5⟩,
    ⟨Tag.paragraph, 7⟩]

/-- The block parser used in the counterexamples: the event list above
for the fixed text, and no events otherwise. -/
def parse_bq : Str → List BlockEvent :=
  fun s => if s = bq_fixed then ev_bq else []

theorem bq_pipeline_eval :
    fix_cmarker_quirks (normalise_legacy_callouts
      (transform_admonitions "a\n\n> q\n".toList)) = bq_fixed := by
  simp +decide [transform_admonitions, split_inclusive_nl,
    transform_admonitions_go, normalise_legacy_callouts, replace_all,
    fix_cmarker_quirks, split_nl, fix_cmarker_go, bq_fixed,
    line_is_blockquote, zws]

/-- C1.  The claim states that anchor injection emits no anchor for a
`BlockQuote` container-start event and none for a block whose line begins
with `>`.  This is false of the code: `is_block_level` classifies
`Tag::BlockQuote` as block-level and `inject_anchors` has no
line-based filter, so on the caller input `"a\n\n> q\n"` the pipeline
anchors both the blockquote start (offset 5 of the fixed text, the
start of the `> q` line) and the paragraph nested inside it (offset 7,
on that same `>`-initial line). -/
theorem C1_counterexample :
    (⟨Tag.blockQuote, 5⟩ : BlockEvent) ∈
        parse_bq (fix_cmarker_quirks (normalise_legacy_callouts
          (transform_admonitions "a\n\n> q\n".toList))) ∧
      5 ∈ ((preprocess_markdown parse_bq "a\n\n> q\n".toList).anchors.map
        AnchorMeta.offset) ∧
      7 ∈ ((preprocess_markdown parse_bq "a\n\n> q\n".toList).anchors.map
        AnchorMeta.offset) ∧
      starts_with (bq_fixed.drop 5) ">".toList = true := by
  refine ⟨?_, ?_, ?_, by decide⟩
  · rw [bq_pipeline_eval]
    decide
  · simp only [preprocess_markdown]
    rw [bq_pipeline_eval]
    decide
  · simp only [preprocess_markdown]
    rw [bq_pipeline_eval]
    decide

/-- C1 (amended).  `is_block_level` returns `true` for `BlockQuote`, and
every block-level start event — blockquote containers and `>`-line
content included — gets an anchor at its offset: either the event's
offset is fresh and an anchor is pushed for it, or the offset was seen
before, in which case an anchor at that offset already exists. -/
theorem C1_amended_blocklevel_events_anchored (md : Str)
    (events : List BlockEvent) (e : BlockEvent) (he : e ∈ events)
    (hb : is_block_level e.tag = true) :
    e.offset ∈ ((inject_anchors md events).anchors.map AnchorMeta.offset) := by
  simp only [inject_anchors]
  have h := inject_loop_props md events
    { insertions := [(0, build_anchor_markup md 0 "tf-doc-start".toList)]
      anchors := [⟨"tf-doc-start".toList, 0, 0, 0⟩]
      seen := [0] }
    (by simp [anchor_offsets]) (by intro o; simp [anchor_offsets])
  exact h.2.2.2 e he hb

theorem C1_amended_witness :
    ((⟨Tag.blockQuote, 5⟩ : BlockEvent) ∈ ev_bq ∧
        is_block_level Tag.blockQuote = true) ∧
      5 ∈ ((inject_anchors bq_fixed ev_bq).anchors.map AnchorMeta.offset) :=
  ⟨by decide,
    C1_amended_blocklevel_events_anchored bq_fixed ev_bq ⟨Tag.blockQuote, 5⟩
      (by decide) (by decide)⟩

/-- C2.  The claim states that every anchor offset is within the bounds
of the caller-supplied input.  It fails already on the empty input: the
parser produces no events for `""`, yet `preprocess_markdown` always
emits the `tf-doc-start` anchor at offset 0, which is not a valid byte
position of the empty string (and starts no block-level element). -/
theorem C2_counterexample :
    ¬ (∀ a ∈ (preprocess_markdown (fun _ => ([] : List BlockEvent))
        ([] : Str)).anchors, a.offset < ([] : Str).length) := by
  intro hall
  have hanch : (preprocess_markdown (fun _ => ([] : List BlockEvent))
      ([] : Str)).anchors = [⟨"tf-doc-start".toList, 0, 0, 0⟩] := by
    simp +decide [preprocess_markdown, transform_admonitions,
      split_inclusive_nl, transform_admonitions_go,
      normalise_legacy_callouts, replace_all, fix_cmarker_quirks, split_nl,
      fix_cmarker_go, inject_anchors]
  rw [hanch] at hall
  have h0 := hall ⟨"tf-doc-start".toList, 0, 0, 0⟩ (by simp)
  simp at h0

/-- C2 (amended).  Anchor offsets are positions in the pre-injection text
handed to `inject_anchors` (the admonition-transformed, legacy-normalised,
cmarker-fixed markdown, not the caller's original input): provided every
parser event offset is at most that text's length, every anchor offset is
at most that text's length, with the document-start anchor pinned at 0. -/
theorem C2_amended_offsets_bounded (md : Str) (events : List BlockEvent)
    (hev : ∀ e ∈ events, e.offset ≤ md.length) :
    ∀ a ∈ (inject_anchors md events).anchors, a.offset ≤ md.length := by
  intro a ha
  simp only [inject_anchors] at ha
  have hb := inject_loop_bound md md.length events
    { insertions := [(0, build_anchor_markup md 0 "tf-doc-start".toList)]
      anchors := [⟨"tf-doc-start".toList, 0, 0, 0⟩]
      seen := [0] }
    (by simp [anchor_offsets]) hev
  exact hb a.offset (List.mem_map_of_mem AnchorMeta.offset ha)

theorem C2_amended_witness :
    ((⟨"tf-doc-start".toList, 0, 0, 0⟩ : AnchorMeta) ∈
        (inject_anchors "ab".toList [⟨Tag.paragraph, 0⟩]).anchors) ∧
      (⟨"tf-doc-start".toList, 0, 0, 0⟩ : AnchorMeta).offset ≤
        ("ab".toList : Str).length :=
  ⟨by decide,
    C2_amended_offsets_bounded "ab".toList [⟨Tag.paragraph, 0⟩] (by decide)
      ⟨"tf-doc-start".toList, 0, 0, 0⟩ (by decide)⟩

/-- C3.  Anchor de-duplication is by offset: whatever event stream the
parser yields, no two anchors returned by one `inject_anchors` call share
an offset (the `seen_offsets` set is consulted before every emission, and
it tracks exactly the offsets already carrying an anchor). -/
theorem C3_anchor_offsets_nodup (md : Str) (events : List BlockEvent) :
    ((inject_anchors md events).anchors.map AnchorMeta.offset).Nodup := by
  simp only [inject_anchors]
  exact (inject_loop_props md events
    { insertions := [(0, build_anchor_markup md 0 "tf-doc-start".toList)]
      anchors := [⟨"tf-doc-start".toList, 0, 0, 0⟩]
      seen := [0] }
    (by simp [anchor_offsets]) (by intro o; simp [anchor_offsets])).1

/-- C5.  On the spec's round-trip input the admonition transform yields a
block tagged `warning` whose body keeps both lines in order with the `>`
markers stripped — but the rendered output contains only the opening
delimiter `<!--raw-typst #admonition("warning")[ -->`; no closing
delimiter for the `[` content block is ever emitted, so the body is not
enclosed on the right. -/
theorem C5_admonition_transform_output :
    transform_admonitions "> [!warning] Be careful\n> second line\n".toList =
      "<!--raw-typst #admonition(\"warning\")[ -->\nBe careful\nsecond line\n".toList := by
  simp +decide [transform_admonitions, transform_admonitions_go,
    consume_quoted, split_inclusive_nl, trim_start, starts_with, find_char,
    trim, trim_end, canonical_admonition_kind, to_lower, is_ws]

/-- C9.  Admonition kind folding is case-insensitive and total: every
casing of `warn`, `danger`, `caution` folds to `warning`, and any kind
whose lowercase form is outside the recognized synonym sets folds to
`note`. -/
theorem C9_synonym_folding (raw : Str) :
    ((to_lower raw = "warn".toList ∨ to_lower raw = "danger".toList ∨
        to_lower raw = "caution".toList) →
      canonical_admonition_kind raw = "warning".toList) ∧
    (to_lower raw ∉ ["warning".toList, "warn".toList, "danger".toList,
        "caution".toList, "tip".toList, "success".toList, "info".toList,
        "information".toList, "important".toList] →
      canonical_admonition_kind raw = "note".toList) := by
  constructor
  · intro h
    simp only [canonical_admonition_kind]
    rcases h with h | h | h <;> simp [h]
  · intro h
    simp only [canonical_admonition_kind]
    split_ifs with hw ht hi hp
    · rcases hw with hc | hc | hc | hc <;> exact absurd (by rw [hc]; simp) h
    · rcases ht with hc | hc <;> exact absurd (by rw [hc]; simp) h
    · rcases hi with hc | hc <;> exact absurd (by rw [hc]; simp) h
    · exact absurd (by rw [hp]; simp) h
    · rfl

theorem C9_witness :
    canonical_admonition_kind "WaRn".toList = "warning".toList ∧
      canonical_admonition_kind "foo".toList = "note".toList :=
  ⟨(C9_synonym_folding "WaRn".toList).1 (by decide),
    (C9_synonym_folding "foo".toList).2 (by decide)⟩

/-! ## Sorting lemmas for the insertion algorithm (C4) -/

theorem insert_sorted_perm (x : Nat × Str) (l : List (Nat × Str)) :
    (insert_sorted x l).Perm (x :: l) := by
  induction l with
  | nil => simp [insert_sorted]
  | cons y ys ih =>
    simp only [insert_sorted]
    split
    · exact List.Perm.refl _
    · exact (ih.cons y).trans (List.Perm.swap x y ys)

theorem sort_foldl_perm :
    ∀ (l acc : List (Nat × Str)),
      (l.foldl (fun a x => insert_sorted x a) acc).Perm (acc ++ l) := by
  intro l
  induction l with
  | nil => intro acc; simp
  | cons x xs ih =>
    intro acc
    simp only [List.foldl_cons]
    refine (ih (insert_sorted x acc)).trans ?_
    have h1 : (insert_sorted x acc ++ xs).Perm ((x :: acc) ++ xs) :=
      (insert_sorted_perm x acc).append_right xs
    refine h1.trans ?_
    exact List.perm_middle.symm

theorem sort_by_offset_perm (l : List (Nat × Str)) :
    (sort_by_offset l).Perm l := by
  simpa using sort_foldl_perm l []

/-- The key order of the Rust `sort_by_key` call. -/
def le_key (a b : Nat × Str) : Prop := a.1 ≤ b.1

theorem insert_sorted_mem {z x : Nat × Str} {l : List (Nat × Str)}
    (h : z ∈ insert_sorted x l) : z = x ∨ z ∈ l :=
  by simpa using (insert_sorted_perm x l).subset h

theorem insert_sorted_sorted (x : Nat × Str) (l : List (Nat × Str))
    (h : l.Sorted le_key) : (insert_sorted x l).Sorted le_key := by
  induction l with
  | nil => simp [insert_sorted, List.Sorted]
  | cons y ys ih =>
    rcases List.pairwise_cons.mp h with ⟨hy, hys⟩
    simp only [insert_sorted]
    split
    · rename_i hlt
      refine List.pairwise_cons.mpr ⟨?_, h⟩
      intro z hz
      rcases List.mem_cons.mp hz with hz | hz
      · rw [hz]
        exact Nat.le_of_lt hlt
      · exact le_trans (Nat.le_of_lt hlt) (hy z hz)
    · rename_i hle
      refine List.pairwise_cons.mpr ⟨?_, ih hys⟩
      intro z hz
      rcases insert_sorted_mem hz with hz | hz
      · rw [hz]
        exact Nat.le_of_not_lt hle
      · exact hy z hz

theorem sort_foldl_sorted :
    ∀ (l acc : List (Nat × Str)), acc.Sorted le_key →
      (l.foldl (fun a x => insert_sorted x a) acc).Sorted le_key := by
  intro l
  induction l with
  | nil => intro acc h; simpa using h
  | cons x xs ih =>
    intro acc h
    simp only [List.foldl_cons]
    exact ih (insert_sorted x acc) (insert_sorted_sorted x acc h)

theorem sort_by_offset_sorted (l : List (Nat × Str)) :
    (sort_by_offset l).Sorted le_key :=
  sort_foldl_sorted l [] (by simp [List.Sorted])

theorem sorted_nodup_keys_eq :
    ∀ (xs ys : List (Nat × Str)), xs.Perm ys → xs.Sorted le_key →
      ys.Sorted le_key → (xs.map Prod.fst).Nodup → xs = ys := by
  intro xs
  induction xs with
  | nil =>
    intro ys hp _ _ _
    exact hp.nil_eq
  | cons x xs' ih =>
    intro ys hp hsx hsy hnd
    cases ys with
    | nil =>
      have := hp.symm.nil_eq
      simp at this
    | cons y ys' =>
      by_cases hxy : x = y
      · subst hxy
        have htail := ih ys' (hp.cons_inv) (List.pairwise_cons.mp hsx).2
          (List.pairwise_cons.mp hsy).2
          (by
            rw [List.map_cons] at hnd
            exact (List.nodup_cons.mp hnd).2)
        rw [htail]
      · have hxmem : x ∈ y :: ys' := hp.subset (List.mem_cons_self x xs')
        have hymem : y ∈ x :: xs' := hp.symm.subset (List.mem_cons_self y ys')
        have hx' : x ∈ ys' := by
          rcases List.mem_cons.mp hxmem with h | h
          · exact absurd h hxy
          · exact h
        have hy' : y ∈ xs' := by
          rcases List.mem_cons.mp hymem with h | h
          · exact absurd h.symm hxy
          · exact h
        have h1 : x.1 ≤ y.1 := (List.pairwise_cons.mp hsx).1 y hy'
        have h2 : y.1 ≤ x.1 := (List.pairwise_cons.mp hsy).1 x hx'
        have heq : y.1 = x.1 := Nat.le_antisymm h2 h1
        have hmem : x.1 ∈ xs'.map Prod.fst := heq ▸ List.mem_map_of_mem Prod.fst hy'
        have hnotmem : x.1 ∉ xs'.map Prod.fst := by
          rw [List.map_cons] at hnd
          exact (List.nodup_cons.mp hnd).1
        exact absurd hmem hnotmem

/-- C4.  The sorted-descending insertion algorithm is order independent:
for pairwise-distinct offsets, any permutation of the `(offset, text)`
set produces the identical final string. -/
theorem C4_insertion_order_independence (base : Str)
    (l1 l2 : List (Nat × Str)) (hperm : l1.Perm l2)
    (hnd : (l1.map Prod.fst).Nodup) :
    apply_insertions base l1 = apply_insertions base l2 := by
  have hs : sort_by_offset l1 = sort_by_offset l2 := by
    refine sorted_nodup_keys_eq _ _
      ((sort_by_offset_perm l1).trans (hperm.trans (sort_by_offset_perm l2).symm))
      (sort_by_offset_sorted l1) (sort_by_offset_sorted l2) ?_
    exact (((sort_by_offset_perm l1).map Prod.fst).nodup_iff).mpr hnd
  simp [apply_insertions, hs]

theorem C4_witness :
    (([((5 : Nat), "B".toList), (0, "A".toList)] : List (Nat × Str)).Perm
        [(0, "A".toList), (5, "B".toList)]) ∧
      (([((5 : Nat), "B".toList), (0, "A".toList)] : List (Nat × Str)).map
        Prod.fst).Nodup ∧
      apply_insertions "hello".toList [(5, "B".toList), (0, "A".toList)] =
        apply_insertions "hello".toList [(0, "A".toList), (5, "B".toList)] :=
  ⟨by decide, by decide,
    C4_insertion_order_independence "hello".toList _ _ (by decide) (by decide)⟩

/-! ## Source-map builder claims (C6, C8) -/

def pos_c6 : PdfPosition := ⟨1, 10, 20⟩

/-- An adversarial compiler oracle: the plain `label()` selector returns
an empty result, while any other selector spelling (in particular the
`element(..)`-wrapped variants the spec describes) would resolve the
anchor. -/
def q_c6 : Str → Option (List (Str × PdfPosition)) :=
  fun s => if s = "label()".toList then some [] else
    some [("tf-0-0".toList, pos_c6)]

def a_c6 : AnchorMeta := ⟨"tf-0-0".toList, 0, 0, 0⟩

/-- C6.  The claim says `build_source_map` walks an ordered list of
selector spellings, stopping at the first non-empty result and aborting
on version-incompatibility signals.  The code issues exactly one query,
with the fixed selector `label()`: under `q_c6` the plain query comes
back empty and an `element(..)`-wrapped spelling would have resolved the
anchor, yet the function queries only `label()` and returns the anchor
unresolved — no second variant, no version probe, no incompatibility
signal. -/
theorem C6_counterexample :
    q_c6 "label()".toList = some [] ∧
      q_c6 "element(label())".toList = some [(a_c6.id, pos_c6)] ∧
      (build_source_map_run q_c6 [a_c6]).2 = ["label()".toList] ∧
      (build_source_map_run q_c6 [a_c6]).1 =
        ⟨[⟨"tf-0-0".toList, ⟨0, 0, 0⟩, none⟩]⟩ := by
  decide

/-- C6 (amended).  `build_source_map` performs no variant retry: for a
non-empty anchor list it issues exactly the single query `label()`
(and for an empty anchor list, none at all), whatever the compiler
returns. -/
theorem C6_amended_single_fixed_query
    (query : Str → Option (List (Str × PdfPosition)))
    (anchors : List AnchorMeta) :
    (build_source_map_run query anchors).2 =
      if anchors.isEmpty then [] else ["label()".toList] := by
  simp only [build_source_map_run]
  split <;> rfl

/-- C8.  Building the source map never fails and never drops an anchor:
the payload is the anchor list mapped through the left-join with the
resolved-position map of the single query (so an empty anchor list gives
the empty payload), and the compiler is consulted only when the anchor
list is non-empty. -/
theorem C8_source_map_total_join
    (query : Str → Option (List (Str × PdfPosition)))
    (anchors : List AnchorMeta) :
    (build_source_map_run query anchors).1.anchors =
      anchors.map (fun a =>
        ⟨a.id, ⟨a.offset, a.line, a.column⟩,
          lookup_pos ((query "label()".toList).getD []) a.id⟩) ∧
      (build_source_map_run query anchors).2 =
        if anchors.isEmpty then [] else ["label()".toList] := by
  constructor
  · simp only [build_source_map_run]
    split
    · rename_i h
      rw [List.isEmpty_iff.mp h]
      simp
    · simp [attach_pdf_positions]
  · simp only [build_source_map_run]
    split <;> rfl

/-! ## Lemmas about the image-path rewriter (C7, C10) -/

theorem scan_alt_spec (alt rest : Str) (halt : ']' ∉ alt) :
    scan_alt (alt ++ ']' :: '(' :: rest) = some (alt, rest) := by
  induction alt with
  | nil => simp [scan_alt]
  | cons c alt' ih =>
    have hc : c ≠ ']' := fun h => halt (h ▸ List.mem_cons_self c alt')
    have halt' : ']' ∉ alt' := fun h => halt (List.mem_cons_of_mem c h)
    simp only [List.cons_append, scan_alt, if_neg hc]
    have hr : alt'.append (']' :: '(' :: rest) = alt' ++ ']' :: '(' :: rest := rfl
    rw [hr, ih halt']
    rfl

theorem scan_paren_spec (inner rest : Str) (hin : ')' ∉ inner) :
    scan_paren (inner ++ ')' :: rest) = some (inner, rest) := by
  induction inner with
  | nil => simp [scan_paren]
  | cons c inner' ih =>
    have hc : c ≠ ')' := fun h => hin (h ▸ List.mem_cons_self c inner')
    have hin' : ')' ∉ inner' := fun h => hin (List.mem_cons_of_mem c h)
    simp only [List.cons_append, scan_paren, if_neg hc]
    have hr : inner'.append (')' :: rest) = inner' ++ ')' :: rest := rfl
    rw [hr, ih hin']
    rfl

/-- A single well-formed Markdown image occupying the whole input is
replaced by the replacement closure applied to the parenthesized text. -/
theorem replace_md_single (repl : Str → Str) (alt inner : Str)
    (halt : ']' ∉ alt) (hin : ')' ∉ inner) (hne : inner ≠ []) :
    replace_md_images repl
        ('!' :: '[' :: (alt ++ ']' :: '(' :: (inner ++ [')']))) =
      repl inner := by
  rw [replace_md_images]
  have hcond : ('!' : Char) = '!' ∧
      ('[' :: (alt ++ ']' :: '(' :: (inner ++ [')']))).head? = some '[' := by
    simp
  rw [dif_pos hcond]
  have hdrop : ('[' :: (alt ++ ']' :: '(' :: (inner ++ [')']))).drop 1 =
      alt ++ ']' :: '(' :: (inner ++ [')']) := by simp
  rw [hdrop]
  split
  · rename_i pr hp
    rw [scan_alt_spec alt _ halt] at hp
    have hpr : pr = (alt, inner ++ [')']) := (Option.some.inj hp).symm
    subst hpr
    split
    · rename_i pr2 hp2
      have hre : (inner ++ [')'] : Str) = inner ++ ')' :: [] := rfl
      rw [show ((alt, inner ++ [')']) : Str × Str).2 = inner ++ ')' :: [] from rfl,
        scan_paren_spec inner [] hin] at hp2
      have hpr2 : pr2 = (inner, []) := (Option.some.inj hp2).symm
      subst hpr2
      rw [if_neg (by simpa using hne)]
      rw [show ((inner, ([] : Str)) : Str × Str).2 = [] from rfl]
      simp [replace_md_images]
    · rename_i hp2
      rw [show ((alt, inner ++ [')']) : Str × Str).2 = inner ++ ')' :: [] from rfl,
        scan_paren_spec inner [] hin] at hp2
      simp at hp2
  · rename_i hp
    rw [scan_alt_spec alt _ halt] at hp
    simp at hp

theorem trim_end_eq_self {s : Str}
    (h : ∀ c, s.getLast? = some c → is_ws c = false) : trim_end s = s := by
  unfold trim_end
  match hrev : s.reverse with
  | [] =>
    rw [List.reverse_eq_nil_iff.mp hrev]
    simp
  | c :: r =>
    have hlast : s.getLast? = some c := by
      rw [← List.head?_reverse, hrev]
      rfl
    rw [List.dropWhile_cons, h c hlast]
    simp only [if_false, Bool.false_eq_true]
    rw [← hrev, List.reverse_reverse]

theorem find_title_split_none (inner : Str)
    (h : ∀ c ∈ inner, c ≠ '"' ∧ c ≠ ' ' ∧ c ≠ '\t') :
    ∀ i, find_title_split inner false i = none := by
  induction inner with
  | nil => intro i; simp [find_title_split]
  | cons c r ih =>
    intro i
    have hc := h c (List.mem_cons_self c r)
    have hr : ∀ d ∈ r, d ≠ '"' ∧ d ≠ ' ' ∧ d ≠ '\t' :=
      fun d hd => h d (List.mem_cons_of_mem c hd)
    simp only [find_title_split, if_neg hc.1]
    rw [if_neg (by simp [hc.2.1, hc.2.2])]
    exact ih hr (i + 1)

theorem map_backslash_id {s : Str} (h : ∀ c ∈ s, c ≠ '\\') :
    s.map (fun c => if c = '\\' then '/' else c) = s := by
  induction s with
  | nil => simp
  | cons c r ih =>
    simp only [List.map_cons, if_neg (h c (List.mem_cons_self c r))]
    rw [ih (fun d hd => h d (List.mem_cons_of_mem c hd))]

theorem contains_eq_false_of_not_mem {s : Str} {a : Char} (h : a ∉ s) :
    s.contains a = false := by simpa using h

theorem replace_html_id (repl : Str → Str) :
    ∀ s : Str, '<' ∉ s → replace_html_imgs repl s = s := by
  intro s
  induction s with
  | nil => intro _; simp [replace_html_imgs]
  | cons c rest ih =>
    intro h
    have hc : c ≠ '<' := fun hx => h (hx ▸ List.mem_cons_self c rest)
    rw [replace_html_imgs, if_neg (by simp [hc])]
    rw [ih (fun hx => h (List.mem_cons_of_mem c hx))]

theorem replace_figs_id (repl : Str → Str) :
    ∀ s : Str, '#' ∉ s → replace_raw_figs repl s = s := by
  intro s
  induction s with
  | nil => intro _; simp [replace_raw_figs]
  | cons c rest ih =>
    intro h
    have hc : c ≠ '#' := fun hx => h (hx ▸ List.mem_cons_self c rest)
    rw [replace_raw_figs, if_neg (by simp [hc]), if_neg (by simp [hc])]
    rw [ih (fun hx => h (List.mem_cons_of_mem c hx))]

theorem assets_copy_branch_none (fs : FSOracle) (abs : Str)
    (assetsRoot : Option Str) (wrap hadAngle : Bool)
    (hcopy : ∀ d, fs.copyOk abs d = false) :
    assets_copy_branch fs abs assetsRoot wrap hadAngle = none := by
  unfold assets_copy_branch
  cases assetsRoot with
  | none => rfl
  | some dir =>
    rcases hfn : file_name abs with _ | f
    · simp [hfn]
    · simp [hfn, hcopy]

theorem absolute_norm_assets_id (fs : FSOracle) (base : Str)
    (assetsRoot : Option Str) (name : Str)
    (hchars : ∀ c ∈ name, c ≠ ' ' ∧ c ≠ '(' ∧ c ≠ ')' ∧ c ≠ '\\' ∧ is_ws c = false)
    (hcanon : fs.canonicalize ("/assets/".toList ++ name) = none)
    (hcopy : ∀ d, fs.copyOk ("/assets/".toList ++ name) d = false)
    (hroot : ∀ cr, assetsRoot.bind parent_path = some cr →
      starts_with ("/assets/".toList ++ name) (content_root_str cr) = false) :
    absolute_norm fs base ("/assets/".toList ++ name) assetsRoot true =
      "/assets/".toList ++ name := by
  have hps : ("/assets/".toList ++ name : Str) =
      '/' :: 'a' :: 's' :: 's' :: 'e' :: 't' :: 's' :: '/' :: name := rfl
  have hlastws : ∀ c, ("/assets/".toList ++ name).getLast? = some c →
      is_ws c = false := by
    intro c hc
    rw [List.getLast?_append] at hc
    match hn : name.getLast? with
    | some d =>
      rw [hn] at hc
      simp at hc
      rw [← hc]
      exact (hchars d (List.mem_of_mem_getLast? hn)).2.2.2.2
    | none =>
      rw [hn] at hc
      simp at hc
      rw [← hc]
      decide
  have htrim : trim ("/assets/".toList ++ name) = "/assets/".toList ++ name := by
    unfold trim
    have h1 : trim_start ("/assets/".toList ++ name) = "/assets/".toList ++ name := by
      rw [hps]
      simp +decide [trim_start, List.dropWhile_cons, is_ws]
    rw [h1]
    exact trim_end_eq_self hlastws
  have hnb : ∀ c ∈ ("/assets/".toList ++ name), c ≠ '\\' := by
    intro c hc
    rcases List.mem_append.mp hc with h | h
    · rw [show ("/assets/".toList : Str) = ['/','a','s','s','e','t','s','/'] from rfl] at h
      simp only [List.mem_cons, List.not_mem_nil, or_false] at h
      rcases h with h|h|h|h|h|h|h|h <;> (subst h; decide)
    · exact (hchars c h).2.2.2.1
  have hext : is_external ("/assets/".toList ++ name) = false := by
    rw [hps]
    simp +decide [is_external, to_lower, starts_with]
  have hnmem : ∀ (x : Char), x ≠ '/' → x ≠ 'a' → x ≠ 's' → x ≠ 'e' → x ≠ 't' →
      (∀ c ∈ name, c ≠ x) → x ∉ ("/assets/".toList ++ name) := by
    intro x h1 h2 h3 h4 h5 h6 hx
    rcases List.mem_append.mp hx with h | h
    · rw [show ("/assets/".toList : Str) = ['/','a','s','s','e','t','s','/'] from rfl] at h
      simp only [List.mem_cons, List.not_mem_nil, or_false] at h
      rcases h with h|h|h|h|h|h|h|h <;> simp_all
    · exact absurd rfl (h6 x h)
  have hangleF : starts_with (("/assets/".toList ++ name : Str)) "<".toList = false := by
    rw [hps]; simp +decide [starts_with]
  have hsa : starts_with (("/assets/".toList ++ name : Str)) "assets/".toList = false := by
    rw [hps]; simp +decide [starts_with]
  have hslash : starts_with (("/assets/".toList ++ name : Str)) "/".toList = true := by
    rw [hps]; simp +decide [starts_with]
  have hpa : ¬ (("/assets/".toList ++ name : Str) = "assets".toList) := by
    rw [hps]; intro h; simp at h
  have hv : ¬ (starts_with (("/assets/".toList ++ name : Str)) "//?/".toList = true) := by
    rw [hps]; simp +decide [starts_with]
  have hsv : strip_verbatim ("/assets/".toList ++ name) = "/assets/".toList ++ name := by
    rw [strip_verbatim, dif_neg hv]
  simp only [absolute_norm, hext, htrim, hangleF, Bool.false_eq_true, false_and, if_false,
    decide_False, map_backslash_id hnb, hsa, false_or, if_neg hpa, hslash, true_or, if_true,
    hcanon, Option.getD_none, hsv]
  have hw : wrap_md true false ("/assets/".toList ++ name) = "/assets/".toList ++ name := by
    have c1 : ("/assets/".toList ++ name : Str).contains ' ' = false :=
      contains_eq_false_of_not_mem (hnmem ' ' (by decide) (by decide) (by decide)
        (by decide) (by decide) (fun c hc => (hchars c hc).1))
    have c2 : ("/assets/".toList ++ name : Str).contains '(' = false :=
      contains_eq_false_of_not_mem (hnmem '(' (by decide) (by decide) (by decide)
        (by decide) (by decide) (fun c hc => (hchars c hc).2.1))
    have c3 : ("/assets/".toList ++ name : Str).contains ')' = false :=
      contains_eq_false_of_not_mem (hnmem ')' (by decide) (by decide) (by decide)
        (by decide) (by decide) (fun c hc => (hchars c hc).2.2.1))
    simp only [wrap_md, needs_wrap, c1, c2, c3]
    simp
  have hbranch := assets_copy_branch_none fs ("/assets/".toList ++ name) assetsRoot
    true false hcopy
  rcases hbind : assetsRoot.bind parent_path with _ | cr
  · dsimp only
    rw [hbranch]
    exact hw
  · dsimp only
    rw [hroot cr hbind, hbranch]
    exact hw


/-- The Markdown image replacement on a plain captured path (no
whitespace, no quote characters): the alt text is discarded and no title
is split off. -/
theorem md_img_replacement_plain (fs : FSOracle) (base : Str)
    (assetsRoot : Option Str) (inner : Str)
    (hws : ∀ c ∈ inner, is_ws c = false) (hq : ∀ c ∈ inner, c ≠ '"') :
    md_img_replacement fs base assetsRoot inner =
      "![](".toList ++ absolute_norm fs base inner assetsRoot true ++ [')'] := by
  have htrim : trim inner = inner := by
    unfold trim
    have h1 : trim_start inner = inner := by
      cases inner with
      | nil => simp [trim_start]
      | cons c r =>
        simp [trim_start, List.dropWhile_cons, hws c (List.mem_cons_self c r)]
    rw [h1]
    exact trim_end_eq_self (fun c hc => hws c (List.mem_of_mem_getLast? hc))
  have hsplit : find_title_split inner false 0 = none := by
    refine find_title_split_none inner ?_ 0
    intro c hc
    refine ⟨hq c hc, ?_, ?_⟩
    · intro h
      have := hws c hc
      rw [h] at this
      simp [is_ws] at this
    · intro h
      have := hws c hc
      rw [h] at this
      simp [is_ws] at this
  simp only [md_img_replacement, htrim, hsplit]

theorem not_mem_slash_assets {name : Str} {x : Char}
    (h1 : x ≠ '/') (h2 : x ≠ 'a') (h3 : x ≠ 's') (h4 : x ≠ 'e') (h5 : x ≠ 't')
    (h6 : ∀ c ∈ name, c ≠ x) : x ∉ ("/assets/".toList ++ name) := by
  intro hx
  rcases List.mem_append.mp hx with h | h
  · rw [show ("/assets/".toList : Str) = ['/','a','s','s','e','t','s','/'] from rfl] at h
    simp only [List.mem_cons, List.not_mem_nil, or_false] at h
    rcases h with h|h|h|h|h|h|h|h <;> simp_all
  · exact absurd rfl (h6 x h)

/-- Full evaluation of `rewrite_image_paths_in_markdown` on a single
Markdown image whose path is an already-root-relative `/assets/...`
reference, under a filesystem on which that OS-absolute path neither
canonicalizes nor copies: the alt text is dropped and the path comes back
unchanged. -/
theorem rewrite_assets_eval (fs : FSOracle) (base : Str)
    (assetsRoot : Option Str) (alt name : Str)
    (halt : ']' ∉ alt)
    (hchars : ∀ c ∈ name, c ≠ ' ' ∧ c ≠ '(' ∧ c ≠ ')' ∧ c ≠ '\\' ∧
      c ≠ '"' ∧ c ≠ '<' ∧ c ≠ '#' ∧ is_ws c = false)
    (hcanon : fs.canonicalize ("/assets/".toList ++ name) = none)
    (hcopy : ∀ d, fs.copyOk ("/assets/".toList ++ name) d = false)
    (hroot : ∀ cr, assetsRoot.bind parent_path = some cr →
      starts_with ("/assets/".toList ++ name) (content_root_str cr) = false) :
    rewrite_image_paths_in_markdown fs
        ('!' :: '[' :: (alt ++ ']' :: '(' ::
          (("/assets/".toList ++ name) ++ [')']))) base assetsRoot =
      '!' :: '[' :: ']' :: '(' :: (("/assets/".toList ++ name) ++ [')']) := by
  have hchars5 : ∀ c ∈ name, c ≠ ' ' ∧ c ≠ '(' ∧ c ≠ ')' ∧ c ≠ '\\' ∧
      is_ws c = false := fun c hc =>
    ⟨(hchars c hc).1, (hchars c hc).2.1, (hchars c hc).2.2.1,
      (hchars c hc).2.2.2.1, (hchars c hc).2.2.2.2.2.2.2⟩
  have hinp : ')' ∉ ("/assets/".toList ++ name) :=
    not_mem_slash_assets (by decide) (by decide) (by decide) (by decide)
      (by decide) (fun c hc => (hchars c hc).2.2.1)
  have hne : ("/assets/".toList ++ name : Str) ≠ [] := by
    rw [show ("/assets/".toList ++ name : Str) =
      '/' :: 'a' :: 's' :: 's' :: 'e' :: 't' :: 's' :: '/' :: name from rfl]
    simp
  have hwsp : ∀ c ∈ ("/assets/".toList ++ name), is_ws c = false := by
    intro c hc
    rcases List.mem_append.mp hc with h | h
    · rw [show ("/assets/".toList : Str) = ['/','a','s','s','e','t','s','/'] from rfl] at h
      simp only [List.mem_cons, List.not_mem_nil, or_false] at h
      rcases h with h|h|h|h|h|h|h|h <;> (subst h; decide)
    · exact (hchars c h).2.2.2.2.2.2.2
  have hqmem : '"' ∉ ("/assets/".toList ++ name) :=
    not_mem_slash_assets (by decide) (by decide) (by decide) (by decide)
      (by decide) (fun c hc => (hchars c hc).2.2.2.2.1)
  have hqp : ∀ c ∈ ("/assets/".toList ++ name), c ≠ '"' :=
    fun c hc he => hqmem (he ▸ hc)
  have hltmem : '<' ∉ ("/assets/".toList ++ name) :=
    not_mem_slash_assets (by decide) (by decide) (by decide) (by decide)
      (by decide) (fun c hc => (hchars c hc).2.2.2.2.2.1)
  have hhashmem : '#' ∉ ("/assets/".toList ++ name) :=
    not_mem_slash_assets (by decide) (by decide) (by decide) (by decide)
      (by decide) (fun c hc => (hchars c hc).2.2.2.2.2.2.1)
  have hout : ("![](".toList ++ ("/assets/".toList ++ name) ++ [')'] : Str) =
      '!' :: '[' :: ']' :: '(' :: (("/assets/".toList ++ name) ++ [')']) := by
    simp
  have hlt_out : '<' ∉
      ('!' :: '[' :: ']' :: '(' :: (("/assets/".toList ++ name) ++ [')']) : Str) := by
    intro h
    simp only [List.mem_cons, List.mem_append, List.mem_singleton] at h
    rcases h with h|h|h|h|h
    · exact absurd h (by decide)
    · exact absurd h (by decide)
    · exact absurd h (by decide)
    · exact absurd h (by decide)
    · rcases h with h | h
      · exact hltmem (List.mem_append.mpr h)
      · exact absurd h (by decide)
  have hhash_out : '#' ∉
      ('!' :: '[' :: ']' :: '(' :: (("/assets/".toList ++ name) ++ [')']) : Str) := by
    intro h
    simp only [List.mem_cons, List.mem_append, List.mem_singleton] at h
    rcases h with h|h|h|h|h
    · exact absurd h (by decide)
    · exact absurd h (by decide)
    · exact absurd h (by decide)
    · exact absurd h (by decide)
    · rcases h with h | h
      · exact hhashmem (List.mem_append.mpr h)
      · exact absurd h (by decide)
  rw [rewrite_image_paths_in_markdown]
  rw [replace_md_single _ alt _ halt hinp hne]
  rw [md_img_replacement_plain fs base assetsRoot _ hwsp hqp]
  rw [absolute_norm_assets_id fs base assetsRoot name hchars5 hcanon hcopy hroot]
  rw [hout]
  rw [replace_html_id _ _ hlt_out]
  rw [replace_figs_id _ _ hhash_out]

/-- C7.  Idempotence on already-root-relative asset references: for a
Markdown image whose path is already of the `/assets/...` form (plain
characters, no quotes/spaces/brackets), and a filesystem on which the
OS-absolute path `/assets/...` neither canonicalizes nor copies (it does
not exist as an OS path) and the content root does not prefix it,
applying the rewriter a second time returns exactly the first
application's output: no angle-bracket wrapping appears and the copy
attempt fails, leaving the reference unchanged. -/
theorem C7_assets_rewrite_idempotent (fs : FSOracle) (base : Str)
    (assetsRoot : Option Str) (alt name : Str)
    (halt : ']' ∉ alt)
    (hchars : ∀ c ∈ name, c ≠ ' ' ∧ c ≠ '(' ∧ c ≠ ')' ∧ c ≠ '\\' ∧
      c ≠ '"' ∧ c ≠ '<' ∧ c ≠ '#' ∧ is_ws c = false)
    (hcanon : fs.canonicalize ("/assets/".toList ++ name) = none)
    (hcopy : ∀ d, fs.copyOk ("/assets/".toList ++ name) d = false)
    (hroot : ∀ cr, assetsRoot.bind parent_path = some cr →
      starts_with ("/assets/".toList ++ name) (content_root_str cr) = false) :
    rewrite_image_paths_in_markdown fs
        (rewrite_image_paths_in_markdown fs
          ('!' :: '[' :: (alt ++ ']' :: '(' ::
            (("/assets/".toList ++ name) ++ [')']))) base assetsRoot)
        base assetsRoot =
      rewrite_image_paths_in_markdown fs
        ('!' :: '[' :: (alt ++ ']' :: '(' ::
          (("/assets/".toList ++ name) ++ [')']))) base assetsRoot := by
  have h1 := rewrite_assets_eval fs base assetsRoot alt name halt hchars
    hcanon hcopy hroot
  have h2 := rewrite_assets_eval fs base assetsRoot [] name (by simp) hchars
    hcanon hcopy hroot
  rw [h1]
  exact h2

/-- The filesystem oracle on which every canonicalization fails, no
destination exists and every copy fails (no OS file at any probed path). -/
def fs_fail : FSOracle :=
  ⟨fun _ => none, fun _ => false, fun _ _ => false, fun _ => []⟩

theorem C7_witness :
    (']' ∉ ("pic".toList : Str)) ∧
      rewrite_image_paths_in_markdown fs_fail
          (rewrite_image_paths_in_markdown fs_fail
            ('!' :: '[' :: ("pic".toList ++ ']' :: '(' ::
              (("/assets/".toList ++ "x.png".toList) ++ [')'])))
            "/docs".toList (some "/content/assets".toList))
          "/docs".toList (some "/content/assets".toList) =
        rewrite_image_paths_in_markdown fs_fail
          ('!' :: '[' :: ("pic".toList ++ ']' :: '(' ::
            (("/assets/".toList ++ "x.png".toList) ++ [')'])))
          "/docs".toList (some "/content/assets".toList) :=
  ⟨by decide,
    C7_assets_rewrite_idempotent fs_fail "/docs".toList
      (some "/content/assets".toList) "pic".toList "x.png".toList
      (by decide) (by decide) rfl (fun _ => rfl)
      (by
        intro cr hcr
        rw [show ((some ("/content/assets".toList) : Option Str).bind
          parent_path) = some ("/content".toList) from by decide] at hcr
        rw [← Option.some.inj hcr]
        decide)⟩

/-- A well-formed Markdown image match at the head of the input, followed
by arbitrary text: the scanner replaces it by the replacement closure
applied to the parenthesized text and continues on the remainder. -/
theorem replace_md_match (repl : Str → Str) (alt inside rest : Str)
    (halt : ']' ∉ alt) (hin : ')' ∉ inside) (hne : inside ≠ []) :
    replace_md_images repl
        ('!' :: '[' :: (alt ++ ']' :: '(' :: (inside ++ ')' :: rest))) =
      repl inside ++ replace_md_images repl rest := by
  rw [replace_md_images]
  have hcond : ('!' : Char) = '!' ∧
      ('[' :: (alt ++ ']' :: '(' :: (inside ++ ')' :: rest))).head? = some '[' := by
    simp
  rw [dif_pos hcond]
  have hdrop : ('[' :: (alt ++ ']' :: '(' :: (inside ++ ')' :: rest))).drop 1 =
      alt ++ ']' :: '(' :: (inside ++ ')' :: rest) := by simp
  rw [hdrop]
  split
  · rename_i pr hp
    rw [scan_alt_spec alt _ halt] at hp
    have hpr : pr = (alt, inside ++ ')' :: rest) := (Option.some.inj hp).symm
    subst hpr
    split
    · rename_i pr2 hp2
      rw [show ((alt, inside ++ ')' :: rest) : Str × Str).2 = inside ++ ')' :: rest from rfl,
        scan_paren_spec inside rest hin] at hp2
      have hpr2 : pr2 = (inside, rest) := (Option.some.inj hp2).symm
      subst hpr2
      rw [if_neg (by simpa using hne)]
    · rename_i hp2
      rw [show ((alt, inside ++ ')' :: rest) : Str × Str).2 = inside ++ ')' :: rest from rfl,
        scan_paren_spec inside rest hin] at hp2
      simp at hp2
  · rename_i hp
    rw [scan_alt_spec alt _ halt] at hp
    simp at hp

/-- Whether a string contains a position at which the Markdown image
scanner would attempt a match: a `!` immediately followed by `[` (the
same head test `replace_md_images` performs at every position). -/
def has_img_start : Str → Bool
  | [] => false
  | c :: rest => if c = '!' ∧ rest.head? = some '[' then true else has_img_start rest

theorem has_img_start_cons_false (c : Char) (rest : Str)
    (h : has_img_start (c :: rest) = false) :
    ¬ (c = '!' ∧ rest.head? = some '[') ∧ has_img_start rest = false := by
  by_cases hc : c = '!' ∧ rest.head? = some '['
  · rw [has_img_start, if_pos hc] at h
    simp at h
  · rw [has_img_start, if_neg hc] at h
    exact ⟨hc, h⟩

/-- Text with no `![` opener passes through the Markdown image pass
unchanged. -/
theorem replace_md_no_match (repl : Str → Str) :
    ∀ s : Str, has_img_start s = false → replace_md_images repl s = s := by
  intro s
  induction s with
  | nil => intro _; simp [replace_md_images]
  | cons c rest ih =>
    intro h
    obtain ⟨hc, hrest⟩ := has_img_start_cons_false c rest h
    rw [replace_md_images, dif_neg hc, ih hrest]

/-- A gap with no `![` opener is copied verbatim by the Markdown image
pass, which continues after it (provided the following text does not
begin with `[`, which could merge with a trailing `!` of the gap). -/
theorem replace_md_gap (repl : Str → Str) :
    ∀ (gap rest : Str), has_img_start gap = false → rest.head? ≠ some '[' →
      replace_md_images repl (gap ++ rest) =
        gap ++ replace_md_images repl rest := by
  intro gap
  induction gap with
  | nil => intro rest _ _; simp
  | cons c g ih =>
    intro rest hgap hrest
    obtain ⟨hc, hg⟩ := has_img_start_cons_false c g hgap
    have hcond : ¬ (c = '!' ∧ (g ++ rest).head? = some '[') := by
      rintro ⟨h1, h2⟩
      cases g with
      | nil => exact hrest (by simpa using h2)
      | cons d g2 => exact hc ⟨h1, by simpa using h2⟩
    rw [List.cons_append, replace_md_images, dif_neg hcond, ih rest hg hrest,
      List.cons_append]

/-- A document assembled from gaps and Markdown image references: each
list entry `(gap, alt, inside)` contributes `gap ++ "![" ++ alt ++ "](" ++
inside ++ ")"`, and `tail` closes the document. -/
def md_doc : List (Str × Str × Str) → Str → Str
  | [], tail => tail
  | r :: rest, tail =>
    r.1 ++ '!' :: '[' :: (r.2.1 ++ ']' :: '(' :: (r.2.2 ++ ')' :: md_doc rest tail))

/-- The Markdown image pass output on such a document: gaps verbatim, each
reference replaced by the replacement closure on its parenthesized text —
the alt texts do not appear. -/
def md_out (repl : Str → Str) : List (Str × Str × Str) → Str → Str
  | [], tail => tail
  | r :: rest, tail => r.1 ++ repl r.2.2 ++ md_out repl rest tail

theorem replace_md_images_doc (repl : Str → Str) :
    ∀ (refs : List (Str × Str × Str)) (tail : Str),
      (∀ r ∈ refs, has_img_start r.1 = false ∧ ']' ∉ r.2.1 ∧
        ')' ∉ r.2.2 ∧ r.2.2 ≠ []) →
      has_img_start tail = false →
      replace_md_images repl (md_doc refs tail) = md_out repl refs tail := by
  intro refs
  induction refs with
  | nil => intro tail _ htail; exact replace_md_no_match repl tail htail
  | cons r rest ih =>
    intro tail hrefs htail
    obtain ⟨hgap, halt, hin, hne⟩ := hrefs r (List.mem_cons_self r rest)
    have hrest : ∀ q ∈ rest, has_img_start q.1 = false ∧ ']' ∉ q.2.1 ∧
        ')' ∉ q.2.2 ∧ q.2.2 ≠ [] :=
      fun q hq => hrefs q (List.mem_cons_of_mem r hq)
    show replace_md_images repl
        (r.1 ++ '!' :: '[' :: (r.2.1 ++ ']' :: '(' :: (r.2.2 ++ ')' :: md_doc rest tail))) =
      r.1 ++ repl r.2.2 ++ md_out repl rest tail
    rw [replace_md_gap repl r.1 _ hgap (by simp)]
    rw [replace_md_match repl r.2.1 r.2.2 _ halt hin hne]
    rw [ih tail hrest htail, List.append_assoc]

theorem md_out_map (repl : Str → Str) :
    ∀ (refs : List (Str × Str × Str)) (tail : Str),
      md_out repl (refs.map (fun r => (r.1, ([] : Str), r.2.2))) tail =
        md_out repl refs tail := by
  intro refs
  induction refs with
  | nil => intro tail; rfl
  | cons r rest ih =>
    intro tail
    simp only [List.map_cons, md_out]
    rw [ih]

/-- C10.  The rewriter discards the alt text of every Markdown image
reference it rewrites, however many references the input contains and
whatever text surrounds them: every replacement the image pass emits
begins with the literal `![](` (an empty alt segment), and the output of
the whole rewriter on a document assembled from arbitrary `![`-free gaps
and well-formed image references equals its output on the same document
with every alt text emptied — both at the Markdown-image pass and after
the HTML `<img>` and `#fig`/`#image` passes, which re-emit their
surrounding captures. -/
theorem C10_md_image_alt_discarded (fs : FSOracle) (base : Str)
    (assetsRoot : Option Str) (refs : List (Str × Str × Str)) (tail : Str)
    (hrefs : ∀ r ∈ refs, has_img_start r.1 = false ∧ ']' ∉ r.2.1 ∧
      ')' ∉ r.2.2 ∧ r.2.2 ≠ [])
    (htail : has_img_start tail = false) :
    (∀ captured : Str,
      (md_img_replacement fs base assetsRoot captured).take 4 = "![](".toList) ∧
    replace_md_images (md_img_replacement fs base assetsRoot) (md_doc refs tail) =
      replace_md_images (md_img_replacement fs base assetsRoot)
        (md_doc (refs.map (fun r => (r.1, ([] : Str), r.2.2))) tail) ∧
    rewrite_image_paths_in_markdown fs (md_doc refs tail) base assetsRoot =
      rewrite_image_paths_in_markdown fs
        (md_doc (refs.map (fun r => (r.1, ([] : Str), r.2.2))) tail)
        base assetsRoot := by
  have htake : ∀ captured : Str,
      (md_img_replacement fs base assetsRoot captured).take 4 = "![](".toList := by
    intro captured
    rw [md_img_replacement]
    split
    · rw [List.append_assoc, List.append_assoc]
      simpa using List.take_left "![](".toList _
    · rw [List.append_assoc]
      simpa using List.take_left "![](".toList _
  have hmap : ∀ q ∈ refs.map (fun r => (r.1, ([] : Str), r.2.2)),
      has_img_start q.1 = false ∧ ']' ∉ q.2.1 ∧ ')' ∉ q.2.2 ∧ q.2.2 ≠ [] := by
    intro q hq
    obtain ⟨r, hr, hqe⟩ := List.mem_map.mp hq
    obtain ⟨h1, _, h3, h4⟩ := hrefs r hr
    rw [← hqe]
    exact ⟨h1, by simp, h3, h4⟩
  have hmd : replace_md_images (md_img_replacement fs base assetsRoot)
      (md_doc refs tail) =
      replace_md_images (md_img_replacement fs base assetsRoot)
        (md_doc (refs.map (fun r => (r.1, ([] : Str), r.2.2))) tail) := by
    rw [replace_md_images_doc _ refs tail hrefs htail,
      replace_md_images_doc _ _ tail hmap htail, md_out_map]
  refine ⟨htake, hmd, ?_⟩
  rw [rewrite_image_paths_in_markdown, rewrite_image_paths_in_markdown, hmd]

/-- A two-image document with surrounding prose used to exercise C10. -/
def c10_refs : List (Str × Str × Str) :=
  [("see ".toList, "alt one".toList, "assets/a.png".toList),
   (" and ".toList, "two".toList, "/img/b.png".toList)]

theorem C10_witness :
    has_img_start " end".toList = false ∧
      rewrite_image_paths_in_markdown fs_fail (md_doc c10_refs " end".toList)
          "/docs".toList (some "/content/assets".toList) =
        rewrite_image_paths_in_markdown fs_fail
          (md_doc (c10_refs.map (fun r => (r.1, ([] : Str), r.2.2)))
            " end".toList) "/docs".toList (some "/content/assets".toList) :=
  ⟨by decide,
    (C10_md_image_alt_discarded fs_fail "/docs".toList
      (some "/content/assets".toList) c10_refs " end".toList (by decide)
      (by decide)).2.2⟩

end Tideflow
